import Mathlib

/-!
Verification development for the PostEditor repository: an embeddable
rich-text editor surface (web side, `src/PostEditor/PostEditor.tsx`) that
synchronizes content with a React Native host over a postMessage transport,
with markdown conversion utilities (`src/PostEditor/markdown.tsx`) and a
host-side wrapper component (README.md).

The embedding follows the source.  Strings are Lean `String`
(a wrapper around `List Char`); the JavaScript string operations used by the
source (split, trim, startsWith, regular-expression tests and replaces) are
implemented as the corresponding `List Char` functions.  HTML fragments
handled by the DOM-based sanitizer are modelled as an abstract node tree
(tag name, attribute list, children), the representation the repository
itself manipulates through `innerHTML` parsing.
-/

namespace PostEditor

/-! ## Plain-Text Promoter (`textToHtml`, PostEditor.tsx lines 202-226)

The source tests `/<[a-z][\s\S]*>/i.test(text)`: the text contains a
character `<` immediately followed by an ASCII letter, with some `>`
occurring later.  `looksLike` implements exactly that test on the
character list. -/

def looksLike : List Char → Bool
  | [] => false
  | [_] => false
  | x :: y :: r => (x = '<' && y.isAlpha && r.contains '>') || looksLike (y :: r)

def looksLikeMarkup (s : String) : Bool := looksLike s.data

/-- Prepend a character to the first piece of a split result. -/
def consHead (c : Char) : List (List Char) → List (List Char)
  | h :: t => (c :: h) :: t
  | [] => [[c]]

/-- Split on the two-character separator `"\n\n"`, with the semantics of
the JavaScript `text.split('\n\n')` (leftmost, non-overlapping). -/
def splitPara : List Char → List (List Char)
  | [] => [[]]
  | [c] => [[c]]
  | c :: d :: r =>
    if c = '\n' ∧ d = '\n' then [] :: splitPara r
    else consHead c (splitPara (d :: r))

/-- Split on the single character `'\n'` (JavaScript `paragraph.split('\n')`). -/
def splitLines : List Char → List (List Char)
  | [] => [[]]
  | c :: r => if c = '\n' then [] :: splitLines r else consHead c (splitLines r)

/-- Remove trailing whitespace (the tail half of JavaScript `trim`). -/
def dropTrailingWs (l : List Char) : List Char :=
  (l.reverse.dropWhile Char.isWhitespace).reverse

/-- JavaScript `line.trim()`. -/
def trimL (l : List Char) : List Char :=
  dropTrailingWs (l.dropWhile Char.isWhitespace)

/-- JavaScript truthiness of `line.trim()` used in
`paragraph.split('\n').filter(line => line.trim())`. -/
def trimmedNonempty (l : List Char) : Bool := !(trimL l).isEmpty

/-- The test `/^\d+\./.test(line)`: one or more leading digits followed by
a dot. -/
def startsWithOrdinal (l : List Char) : Bool :=
  !(l.takeWhile Char.isDigit).isEmpty &&
    decide ((l.dropWhile Char.isDigit).head? = some '.')

/-- `line.startsWith('•') || line.startsWith('-') || /^\d+\./.test(line)`. -/
def isMarkerLine (l : List Char) : Bool :=
  (match l with
   | '•' :: _ => true
   | '-' :: _ => true
   | _ => false) || startsWithOrdinal l

/-- `item.replace(/^[•-]\s*/, '')`. -/
def stripBullet : List Char → List Char
  | c :: r => if c = '•' || c = '-' then r.dropWhile Char.isWhitespace else c :: r
  | [] => []

/-- `item.replace(/^\d+\.\s*/, '')` (applied after `stripBullet` in the
source). -/
def stripOrdinal (l : List Char) : List Char :=
  if (l.takeWhile Char.isDigit).isEmpty then l
  else if (l.dropWhile Char.isDigit).head? = some '.' then
    (l.dropWhile Char.isDigit).tail.dropWhile Char.isWhitespace
  else l

def stripMarker (l : List Char) : List Char := stripOrdinal (stripBullet l)

/-- JavaScript `array.join(sep)`. -/
def joinSep (sep : List Char) : List (List Char) → List Char
  | [] => []
  | [x] => x
  | x :: y :: t => x ++ sep ++ joinSep sep (y :: t)

/-- The body of the `.map(paragraph => ...)` in `textToHtml`
(PostEditor.tsx lines 211-223): one paragraph group rendered to HTML. -/
def renderGroup (p : List Char) : List Char :=
  let lines := (splitLines p).filter trimmedNonempty
  if lines.length = 0 then []
  else if lines.length = 1 then
    '<' :: 'p' :: '>' :: (lines.headI ++ ('<' :: '/' :: 'p' :: '>' :: []))
  else
    let listItems := lines.map trimL
    if listItems.any isMarkerLine then
      ('<' :: 'u' :: 'l' :: '>' :: []) ++
        (listItems.map
          (fun i => ('<' :: 'l' :: 'i' :: '>' :: []) ++ stripMarker i ++
            ('<' :: '/' :: 'l' :: 'i' :: '>' :: []))).flatten ++
        ('<' :: '/' :: 'u' :: 'l' :: '>' :: [])
    else
      '<' :: 'p' :: '>' ::
        ((joinSep ('<' :: 'b' :: 'r' :: '>' :: []) listItems) ++
          ('<' :: '/' :: 'p' :: '>' :: []))

/-- `textToHtml` (PostEditor.tsx lines 202-226): if the text already looks
like markup, return it unchanged; otherwise split into paragraph groups,
render each group, drop the empty renderings and concatenate. -/
def textToHtmlL (t : List Char) : List Char :=
  if looksLike t then t
  else (((splitPara t).map renderGroup).filter (fun p => !p.isEmpty)).flatten

def textToHtml (t : String) : String := ⟨textToHtmlL t.data⟩

example : textToHtml "" = "" := by decide
example : textToHtml "hello" = "<p>hello</p>" := by decide
example : textToHtml "a\nb" = "<p>a<br>b</p>" := by decide
example : textToHtml "• foo\n• bar" = "<ul><li>foo</li><li>bar</li></ul>" := by decide
example : textToHtml "a\n\nb" = "<p>a</p><p>b</p>" := by decide
example : textToHtml "<b>x</b>" = "<b>x</b>" := by decide
example : textToHtml "1. one\n2. two" = "<ul><li>one</li><li>two</li></ul>" := by decide

/-! ## HTML fragment trees

The sanitizer `cleanHtml` (PostEditor.tsx lines 134-175) and the
`<u>`-stripping step of `handleChange` (lines 379-391) operate on the DOM
produced by assigning `temp.innerHTML`.  Following the abstract-tree
representation the spec itself names (tag name, attribute mapping,
children sequence), an HTML fragment is a list of nodes. -/

inductive Node where
  | text (s : String)
  | elem (tag : String) (attrs : List (String × String)) (children : List Node)

/-- Structural induction over fragments, following the shape shared by
every fragment-processing function below. -/
theorem nodeListInd (P : List Node → Prop) (h1 : P [])
    (h2 : ∀ s r, P r → P (Node.text s :: r))
    (h3 : ∀ t a c r, P c → P r → P (Node.elem t a c :: r)) : ∀ ns, P ns
  | [] => h1
  | .text s :: r => h2 s r (nodeListInd P h1 h2 h3 r)
  | .elem t a c :: r => h3 t a c r (nodeListInd P h1 h2 h3 c) (nodeListInd P h1 h2 h3 r)

/-- Pass 1 of `cleanHtml`: `querySelectorAll('[style]')` followed by
`removeAttribute('style')` on every element. -/
def removeStyleAttrs : List Node → List Node
  | [] => []
  | .text s :: r => .text s :: removeStyleAttrs r
  | .elem t a c :: r =>
    .elem t (a.filter (fun p => p.1 ≠ "style")) (removeStyleAttrs c) :: removeStyleAttrs r

/-- Pass 2 of `cleanHtml`: on every element, remove every attribute whose
name is not in the allow-list `['href', 'target']`. -/
def keepAllowedAttrs : List Node → List Node
  | [] => []
  | .text s :: r => .text s :: keepAllowedAttrs r
  | .elem t a c :: r =>
    .elem t (a.filter (fun p => p.1 = "href" || p.1 = "target")) (keepAllowedAttrs c) ::
      keepAllowedAttrs r

/-- Pass 3 of `cleanHtml`: `querySelectorAll('font')` snapshots every font
element in document order; each is replaced by a freshly created `span`
(carrying no attributes) whose `innerHTML` is a copy of the font element
content.  Because an outer font element is processed before any font nested
inside it, `replaceWith` detaches the outer font together with the original
inner fonts, and the copies of those inner fonts placed inside the new span
are fresh nodes that are not in the snapshot: they are never replaced.  On
the tree this means exactly the outermost font elements become spans, with
their children kept verbatim; fonts inside non-font elements are reached
recursively. -/
def replaceFontsTop : List Node → List Node
  | [] => []
  | .text s :: r => .text s :: replaceFontsTop r
  | .elem t a c :: r =>
    if t = "font" then .elem "span" [] c :: replaceFontsTop r
    else .elem t a (replaceFontsTop c) :: replaceFontsTop r

/-- Pass 4 of `cleanHtml`, one tag of `tagsToRemove`: every element with
this tag, at any depth, is removed and its children are spliced in its
place (`insertBefore` moves the live child nodes, so nested occurrences
stay in the document and are unwrapped as well). -/
def unwrapTag (t : String) : List Node → List Node
  | [] => []
  | .text s :: r => .text s :: unwrapTag t r
  | .elem tg a c :: r =>
    if tg = t then unwrapTag t c ++ unwrapTag t r
    else .elem tg a (unwrapTag t c) :: unwrapTag t r

def tagsToRemove : List String := ["span", "div", "section", "article", "u"]

/-- `cleanHtml` (PostEditor.tsx lines 134-175): remove style attributes,
keep only allow-listed attributes, replace font elements by spans, then
unwrap the tags of `tagsToRemove` in order. -/
def cleanHtml (ns : List Node) : List Node :=
  tagsToRemove.foldl (fun acc t => unwrapTag t acc)
    (replaceFontsTop (keepAllowedAttrs (removeStyleAttrs ns)))

/-- The visible text nodes of a fragment, in document order
(the DOM `textContent` is their concatenation). -/
def texts : List Node → List String
  | [] => []
  | .text s :: r => s :: texts r
  | .elem _ _ c :: r => texts c ++ texts r

/-- DOM `textContent` of a fragment. -/
def textContent (ns : List Node) : String := String.join (texts ns)

example :
    cleanHtml [.elem "span" [("style", "color:red"), ("class", "x")] [.text "hi"]] =
      [.text "hi"] := by
  simp [cleanHtml, tagsToRemove, removeStyleAttrs, keepAllowedAttrs, replaceFontsTop, unwrapTag]
example :
    cleanHtml [.elem "font" [] [.elem "font" [] [.text "x"]]] =
      [.elem "font" [] [.text "x"]] := by
  simp [cleanHtml, tagsToRemove, removeStyleAttrs, keepAllowedAttrs, replaceFontsTop, unwrapTag]
example :
    cleanHtml [.elem "a" [("href", "u"), ("style", "s")] [.text "x"]] =
      [.elem "a" [("href", "u")] [.text "x"]] := by
  simp [cleanHtml, tagsToRemove, removeStyleAttrs, keepAllowedAttrs, replaceFontsTop, unwrapTag]

/-! ## Content Converter (`markdown.tsx`)

The unified/remark/rehype pipelines are external collaborators; each is
modelled as an opaque fallible function `String → Option String`
(`none` models a rejected conversion promise).

`markdownToHtml` (markdown.tsx lines 9-17) has no error handling: a failed
conversion propagates as a rejection to the caller.

`htmlToMarkdown` (markdown.tsx lines 19-35) wraps the conversion in a
try/catch and falls back to returning the original HTML unconverted. -/

def markdownToHtml (conv : String → Option String) (markdown : String) : Option String :=
  conv markdown

def htmlToMarkdown (conv : String → Option String) (html : String) : String :=
  match conv html with
  | some md => md
  | none => html

/-! ## Sync Engine dispatch (`handleMessage`, PostEditor.tsx lines 257-280)

Inbound envelopes are the parsed JSON objects; only the fields the
dispatcher reads are modelled.  Outbound envelopes are the objects passed
to `window.ReactNativeWebView.postMessage`; the `bridge` flag models
whether `window.ReactNativeWebView` is defined (it is, in the embedded
WebView deployment). -/

structure InMsg where
  type : String
  value : Option String
  requestId : Option String
  command : Option String

structure OutMsg where
  type : String
  requestId : Option String
  value : Option String
  height : Option Nat
deriving DecidableEq

/-- Editor Live Value: the `value` state of the component. -/
structure EngineState where
  value : String
deriving DecidableEq

/-- One inbound envelope dispatched by `handleMessage`
(PostEditor.tsx lines 257-280).  `SET_VALUE` with a defined value runs the
markdown conversion and, when it succeeds, stores
`textToHtml(await markdownToHtml(data.value))`; a rejected conversion is
caught by the surrounding try/catch (logged, no state change).
`GET_VALUE` converts the current live value with `htmlToMarkdown` (which
never rejects) and posts a `VALUE_RESPONSE` with the received `requestId`
when the bridge is present.  `EXECUTE_COMMAND` delegates to
`document.execCommand` and posts nothing.  Unknown types are ignored. -/
def handleMessage (md2html html2md : String → Option String) (bridge : Bool)
    (st : EngineState) (m : InMsg) : EngineState × List OutMsg :=
  if m.type = "SET_VALUE" ∧ m.value.isSome then
    match m.value with
    | some v =>
      match markdownToHtml md2html v with
      | some html => (⟨textToHtml html⟩, [])
      | none => (st, [])
    | none => (st, [])
  else if m.type = "GET_VALUE" then
    let markdown := htmlToMarkdown html2md st.value
    if bridge then
      (st, [⟨"VALUE_RESPONSE", m.requestId, some markdown, none⟩])
    else (st, [])
  else (st, [])

/-- The mount effect (PostEditor.tsx lines 124-130): post one `READY`
envelope when the bridge is present.  React runs this effect before the
effect that registers the message listener, so these emissions precede
every inbound dispatch. -/
def initEmits (bridge : Bool) : List OutMsg :=
  if bridge then [⟨"READY", none, none, none⟩] else []

/-- Dispatch a list of inbound envelopes in order, accumulating outbound
envelopes. -/
def processInbound (md2html html2md : String → Option String) (bridge : Bool) :
    EngineState → List InMsg → List OutMsg
  | _, [] => []
  | st, m :: rest =>
    let (st2, out) := handleMessage md2html html2md bridge st m
    out ++ processInbound md2html html2md bridge st2 rest

/-- A whole session of the surface component: the mount emissions followed
by everything emitted while dispatching the inbound envelopes, starting
from the initial live value `useState('')`. -/
def runSession (md2html html2md : String → Option String) (bridge : Bool)
    (inbound : List InMsg) : List OutMsg :=
  initEmits bridge ++ processInbound md2html html2md bridge ⟨""⟩ inbound

/-! ## User-driven change (`handleChange`, PostEditor.tsx lines 375-406)

On every editor change notification the engine receives the new HTML
fragment.  If it contains a `u` element it unwraps every `u` tag through a
DOM round trip; it stores the result as the new live value; it posts
`VALUE_CHANGED` whose `value` is `document.querySelector('.rsw-editor')?.textContent || ''`
(the plain text of the surface element, empty when the element is absent);
and it posts the measured height now and again after a 50 ms delay.
`surface` is the fragment under the `.rsw-editor` element (`none` when the
query finds nothing), and `h1`, `h2` the two height measurements. -/

def hasTagU : List Node → Bool
  | [] => false
  | .text _ :: r => hasTagU r
  | .elem t _ c :: r => t = "u" || hasTagU c || hasTagU r

def handleChange (bridge : Bool) (surface : Option (List Node)) (h1 h2 : Nat)
    (newValue : List Node) : List Node × List OutMsg :=
  let stored := if hasTagU newValue then unwrapTag "u" newValue else newValue
  (stored,
    (if bridge then
      [⟨"VALUE_CHANGED", none,
        some (match surface with
              | some ns => textContent ns
              | none => ""), none⟩]
     else []) ++
    (if bridge then [⟨"HEIGHT_CHANGED", none, none, some h1⟩] else []) ++
    (if bridge then [⟨"HEIGHT_CHANGED", none, none, some h2⟩] else []))

/-! ## Host-side pending request table (README.md lines 58-118)

The host wrapper component keeps `pendingRequests`, a map from `requestId`
to the resolve/reject pair of the promise returned by `getValue()`.
`getValue` registers a fresh id, posts `GET_VALUE` and schedules a timeout
after `3000` ms.  The `onMessage` handler resolves and deletes a pending
entry on a matching `VALUE_RESPONSE`; the timeout callback rejects and
deletes the entry when it is still present.  The map is modelled by the
list of registered ids (keys are unique) plus the log of completion
callbacks that have been invoked. -/

def getValueTimeoutMs : Nat := 3000

inductive ReqOutcome where
  | resolved (v : String)
  | timedOut
deriving DecidableEq

structure HostState where
  pending : List String
  outcomes : List (String × ReqOutcome)

/-- The `VALUE_RESPONSE` branch of `onMessage` (README.md lines 108-114):
resolve and delete the entry when present, otherwise do nothing. -/
def onValueResponse (st : HostState) (rid v : String) : HostState :=
  if rid ∈ st.pending then
    ⟨st.pending.erase rid, st.outcomes ++ [(rid, .resolved v)]⟩
  else st

/-- The timeout callback scheduled by `getValue` (README.md lines 72-77):
when the entry is still present, delete it and reject with a timeout
error. -/
def onGetValueTimeout (st : HostState) (rid : String) : HostState :=
  if rid ∈ st.pending then
    ⟨st.pending.erase rid, st.outcomes ++ [(rid, .timedOut)]⟩
  else st

inductive HostEvent where
  | response (rid v : String)
  | timeout (rid : String)

def hostStep (st : HostState) : HostEvent → HostState
  | .response rid v => onValueResponse st rid v
  | .timeout rid => onGetValueTimeout st rid

def runHost (st : HostState) (evs : List HostEvent) : HostState :=
  evs.foldl hostStep st

/-- How many completion callbacks have run for request `R`. -/
def outcomesFor (R : String) (st : HostState) : Nat :=
  (st.outcomes.filter (fun p => p.1 = R)).length

/-! ## Claim C1 -/

/-- C1: for every `GET_VALUE` envelope received with requestId `R`, the
engine emits exactly one `VALUE_RESPONSE` envelope carrying the same
requestId `R`; when the HTML-to-Markdown conversion fails, the response
value is the original HTML unconverted, so no pending request is left
unanswered because of a conversion failure.  The emitted list is exactly
one `VALUE_RESPONSE`, its requestId is the received one, and its value is
the conversion result when the converter succeeds and the untouched live
HTML when it fails. -/
theorem getValueAlwaysAnswered (md2html html2md : String → Option String)
    (st : EngineState) (m : InMsg) (R : String)
    (hty : m.type = "GET_VALUE") (hrid : m.requestId = some R) :
    handleMessage md2html html2md true st m =
      (st, [⟨"VALUE_RESPONSE", some R,
            some (match html2md st.value with
                  | some md => md
                  | none => st.value), none⟩]) := by
  simp [handleMessage, hty, hrid, htmlToMarkdown]

theorem getValueAlwaysAnswered_witness :
    handleMessage (fun _ => none) (fun _ => none) true ⟨"<b>hi</b>"⟩
        ⟨"GET_VALUE", none, some "r1", none⟩ =
      (⟨"<b>hi</b>"⟩, [⟨"VALUE_RESPONSE", some "r1", some "<b>hi</b>", none⟩]) :=
  getValueAlwaysAnswered (fun _ => none) (fun _ => none) ⟨"<b>hi</b>"⟩
    ⟨"GET_VALUE", none, some "r1", none⟩ "r1" rfl rfl

/-! ## Claim C4 -/

/-- C4: for every `SET_VALUE` envelope whose markdown-to-HTML conversion
fails, the surrounding try/catch logs the error and the Editor Live Value
is not updated: the resulting state is exactly the previous state and
nothing is emitted. -/
theorem setValueFailureKeepsValue (md2html html2md : String → Option String)
    (bridge : Bool) (st : EngineState) (m : InMsg) (v : String)
    (hty : m.type = "SET_VALUE") (hv : m.value = some v)
    (hfail : md2html v = none) :
    handleMessage md2html html2md bridge st m = (st, []) := by
  simp [handleMessage, hty, hv, markdownToHtml, hfail]

theorem setValueFailureKeepsValue_witness :
    handleMessage (fun _ => none) (fun _ => none) true ⟨"<p>old</p>"⟩
        ⟨"SET_VALUE", some "# new", none, none⟩ =
      (⟨"<p>old</p>"⟩, []) :=
  setValueFailureKeepsValue (fun _ => none) (fun _ => none) true ⟨"<p>old</p>"⟩
    ⟨"SET_VALUE", some "# new", none, none⟩ "# new" rfl rfl rfl

/-! ## Claim C3 -/

/-- setValueSpec is modelled from the claim wording (spec section 4.1):
run content-kind inference on the incoming value first; a value that
already looks like markup is not markdown, so the converter is not
invoked and the promoter is skipped; otherwise the value is converted and
the converted HTML is fed to the promoter (the original value is not
markup).  It exists only to be compared with the dispatch the code
actually performs. -/
def setValueSpec (conv : String → String) (v : String) : String :=
  if looksLikeMarkup v then v else textToHtml (conv v)

/-- C3 fails on the code: `handleMessage` runs
`textToHtml(await markdownToHtml(data.value))` with no content-kind
inference before the conversion, so the converter is invoked even on a
value that is already markup, and the promoter is gated on the converted
result rather than on the original value.  With a converter that wraps its
input in a paragraph, the value `"<b>x</b>"` (already markup) is sent
through the converter and the live value becomes `"<p><b>x</b></p>"`,
while the claimed pipeline leaves it untouched. -/
theorem setValueInferenceFirst_cex :
    ¬ (∀ (conv : String → String) (html2md : String → Option String)
        (st : EngineState) (v : String),
        (handleMessage (fun s => some (conv s)) html2md true st
            ⟨"SET_VALUE", some v, none, none⟩).1.value = setValueSpec conv v) := by
  intro h
  have hx := h (fun s => "<p>" ++ s ++ "</p>") (fun _ => none) ⟨""⟩ "<b>x</b>"
  revert hx
  decide

/-- C3 amended: for every `SET_VALUE` envelope with a defined value, the
engine invokes the Content Converter markdown-to-HTML on the value
unconditionally (no prior content-kind inference); when the conversion
succeeds it feeds the converted result — not the original value — to the
Plain-Text Promoter, which returns it unchanged when the converted result
itself already looks like markup, and sets the Editor Live Value to the
promoter output. -/
theorem setValueConvertsThenPromotes (md2html html2md : String → Option String)
    (bridge : Bool) (st : EngineState) (m : InMsg) (v html : String)
    (hty : m.type = "SET_VALUE") (hv : m.value = some v)
    (hconv : md2html v = some html) :
    handleMessage md2html html2md bridge st m = (⟨textToHtml html⟩, []) := by
  simp [handleMessage, hty, hv, markdownToHtml, hconv]

theorem setValueConvertsThenPromotes_witness :
    handleMessage (fun _ => some "<p><b>x</b></p>") (fun _ => none) true ⟨""⟩
        ⟨"SET_VALUE", some "<b>x</b>", none, none⟩ =
      (⟨"<p><b>x</b></p>"⟩, []) := by
  have h := setValueConvertsThenPromotes (fun _ => some "<p><b>x</b></p>")
    (fun _ => none) true ⟨""⟩ ⟨"SET_VALUE", some "<b>x</b>", none, none⟩
    "<b>x</b>" "<p><b>x</b></p>" rfl rfl rfl
  rw [h]
  decide

/-! ## Claim C9 -/

/-- C9: on mount the Sync Engine emits exactly one `READY` envelope,
unconditionally (independent of any state or traffic), before processing
any inbound envelope: in every session the emission stream contains
exactly one `READY`, and it is the very first envelope emitted. -/
theorem readyEmittedOnceFirst (md2html html2md : String → Option String)
    (inbound : List InMsg) :
    ((runSession md2html html2md true inbound).filter
        (fun o => o.type = "READY")).length = 1 ∧
      (runSession md2html html2md true inbound).head? =
        some ⟨"READY", none, none, none⟩ := by
  have hno : ∀ (st : EngineState) (ms : List InMsg),
      (processInbound md2html html2md true st ms).filter
        (fun o => o.type = "READY") = [] := by
    intro st ms
    induction ms generalizing st with
    | nil => simp [processInbound]
    | cons m rest ih =>
      simp only [processInbound, List.filter_append, ih, List.append_nil]
      unfold handleMessage
      split
      · split <;> (try split) <;> simp
      · split
        · split <;> simp
        · simp
  constructor
  · simp [runSession, initEmits, List.filter_append, hno]
  · simp [runSession, initEmits]

/-! ## Claim C10 -/

/-- C10: in the revision implementing the full protocol, on every
user-driven content change the `VALUE_CHANGED` envelope carries the plain
text of the editing surface — the concatenation of its text nodes, with
every piece of HTML markup removed, and the empty string when the surface
element is absent — while the live value stored by the engine remains the
HTML fragment (with `u` elements unwrapped when present). -/
theorem valueChangedCarriesPlainText (surface : Option (List Node))
    (h1 h2 : Nat) (newValue : List Node) :
    ((handleChange true surface h1 h2 newValue).2.filter
        (fun o => o.type = "VALUE_CHANGED")) =
      [⟨"VALUE_CHANGED", none,
        some (match surface with
              | some ns => textContent ns
              | none => ""), none⟩] ∧
    (handleChange true surface h1 h2 newValue).1 =
      (if hasTagU newValue then unwrapTag "u" newValue else newValue) := by
  constructor
  · simp [handleChange]
  · rfl

/-! ## Claim C2 -/

/-- Invariant of the Pending Request Table for a given request id: the key
list has no duplicates, and either the request is still pending with no
completion callback run, or it is no longer pending and exactly one
completion callback has run. -/
def reqInv (R : String) (st : HostState) : Prop :=
  st.pending.Nodup ∧
    ((R ∈ st.pending ∧ outcomesFor R st = 0) ∨
     (R ∉ st.pending ∧ outcomesFor R st = 1))

/-- The completion count only reads the outcome log, not the key list. -/
theorem outcomesFor_eq (R : String) (p : List String) (st : HostState) :
    outcomesFor R ⟨p, st.outcomes⟩ = outcomesFor R st := rfl

theorem outcomesFor_append (R rid : String) (oc : ReqOutcome)
    (p : List String) (o : List (String × ReqOutcome)) :
    outcomesFor R ⟨p, o ++ [(rid, oc)]⟩ =
      outcomesFor R ⟨p, o⟩ + (if rid = R then 1 else 0) := by
  simp only [outcomesFor, List.filter_append]
  by_cases h : rid = R <;> simp [h]

/-- The common settle step: when `rid` is still registered, remove it and
record one completion; otherwise do nothing.  It preserves the invariant. -/
theorem settle_inv (R rid : String) (oc : ReqOutcome) (st : HostState)
    (h : reqInv R st) :
    reqInv R
      (if rid ∈ st.pending then
        ⟨st.pending.erase rid, st.outcomes ++ [(rid, oc)]⟩
       else st) := by
  obtain ⟨hnd, hcase⟩ := h
  by_cases hmem : rid ∈ st.pending
  · simp only [if_pos hmem]
    refine ⟨hnd.erase rid, ?_⟩
    rcases hcase with ⟨hin, hc0⟩ | ⟨hout, hc1⟩
    · by_cases hR : rid = R
      · subst hR
        right
        refine ⟨fun hx => ?_, ?_⟩
        · exact (List.Nodup.mem_erase_iff hnd |>.mp hx).1 rfl
        · rw [outcomesFor_append]
          simp [outcomesFor_eq, hc0]
      · left
        refine ⟨?_, ?_⟩
        · exact (List.mem_erase_of_ne (fun hx => hR hx.symm)).mpr hin
        · rw [outcomesFor_append]
          simp [outcomesFor_eq, hc0, fun hx => hR hx]
    · right
      refine ⟨?_, ?_⟩
      · intro hx
        exact hout (List.mem_of_mem_erase hx)
      · have hR : rid ≠ R := fun hx => hout (hx ▸ hmem)
        rw [outcomesFor_append]
        simp [outcomesFor_eq, hc1, hR]
  · simpa [if_neg hmem] using ⟨hnd, hcase⟩

theorem hostStep_inv (R : String) (st : HostState) (ev : HostEvent)
    (h : reqInv R st) : reqInv R (hostStep st ev) := by
  cases ev with
  | response rid v => exact settle_inv R rid (.resolved v) st h
  | timeout rid => exact settle_inv R rid .timedOut st h

theorem runHost_inv (R : String) (st : HostState) (evs : List HostEvent)
    (h : reqInv R st) : reqInv R (runHost st evs) := by
  induction evs generalizing st with
  | nil => exact h
  | cons ev rest ih => exact ih (hostStep st ev) (hostStep_inv R st ev h)

/-- After the scheduled timeout for `R` fires, the request is settled:
no longer pending, exactly one completion callback run. -/
theorem timeout_settles (R : String) (st : HostState) (h : reqInv R st) :
    R ∉ (hostStep st (.timeout R)).pending ∧
      outcomesFor R (hostStep st (.timeout R)) = 1 := by
  obtain ⟨hnd, hcase⟩ := h
  rcases hcase with ⟨hin, hc0⟩ | ⟨hout, hc1⟩
  · simp only [hostStep, onGetValueTimeout, if_pos hin]
    constructor
    · intro hx
      exact (List.Nodup.mem_erase_iff hnd |>.mp hx).1 rfl
    · rw [outcomesFor_append]
      simp [outcomesFor_eq, hc0]
  · simp only [hostStep, onGetValueTimeout, if_neg hout]
    exact ⟨hout, hc1⟩

/-- Once settled, a request stays settled under every later event: the
entry is gone, so both the response path and the timeout path are no-ops
for it. -/
theorem settled_absorbing (R : String) (st : HostState) (evs : List HostEvent)
    (h : R ∉ st.pending ∧ outcomesFor R st = 1) :
    R ∉ (runHost st evs).pending ∧ outcomesFor R (runHost st evs) = 1 := by
  induction evs generalizing st with
  | nil => exact h
  | cons ev rest ih =>
    refine ih (hostStep st ev) ?_
    obtain ⟨hout, hc1⟩ := h
    have key : ∀ rid oc,
        R ∉ (if rid ∈ st.pending then
              (⟨st.pending.erase rid, st.outcomes ++ [(rid, oc)]⟩ : HostState)
             else st).pending ∧
        outcomesFor R
          (if rid ∈ st.pending then
            (⟨st.pending.erase rid, st.outcomes ++ [(rid, oc)]⟩ : HostState)
           else st) = 1 := by
      intro rid oc
      by_cases hmem : rid ∈ st.pending
      · have hR : rid ≠ R := fun hx => hout (hx ▸ hmem)
        simp only [if_pos hmem]
        refine ⟨fun hx => hout (List.mem_of_mem_erase hx), ?_⟩
        rw [outcomesFor_append]
        simp [outcomesFor_eq, hc1, hR]
      · simpa [if_neg hmem] using ⟨hout, hc1⟩
    cases ev with
    | response rid v => exact key rid (.resolved v)
    | timeout rid => exact key rid .timedOut

/-- C2: every host-side `getValue()` call yields exactly one terminal
outcome.  The scheduled timeout always fires (it is in the event trace,
after `3000` ms); if a matching `VALUE_RESPONSE` arrives first it resolves
the promise and removes the table entry, otherwise the timeout rejects it
and removes the entry; in every interleaving exactly one completion
callback runs for the request, the entry is removed exactly once, and a
late `VALUE_RESPONSE` arriving after the entry is gone is a no-op. -/
theorem getValueExactlyOneOutcome (st0 : HostState)
    (evs1 evs2 : List HostEvent) (R v : String)
    (hnd : st0.pending.Nodup) (hin : R ∈ st0.pending)
    (h0 : outcomesFor R st0 = 0) :
    outcomesFor R (runHost st0 (evs1 ++ HostEvent.timeout R :: evs2)) = 1 ∧
    R ∉ (runHost st0 (evs1 ++ HostEvent.timeout R :: evs2)).pending ∧
    onValueResponse (runHost st0 (evs1 ++ HostEvent.timeout R :: evs2)) R v =
      runHost st0 (evs1 ++ HostEvent.timeout R :: evs2) ∧
    getValueTimeoutMs = 3000 := by
  have hinv1 : reqInv R (runHost st0 evs1) :=
    runHost_inv R st0 evs1 ⟨hnd, Or.inl ⟨hin, h0⟩⟩
  have hsettled :
      R ∉ (hostStep (runHost st0 evs1) (.timeout R)).pending ∧
        outcomesFor R (hostStep (runHost st0 evs1) (.timeout R)) = 1 :=
    timeout_settles R (runHost st0 evs1) hinv1
  have hrun : runHost st0 (evs1 ++ HostEvent.timeout R :: evs2) =
      runHost (hostStep (runHost st0 evs1) (.timeout R)) evs2 := by
    simp [runHost, List.foldl_append]
  have hfinal := settled_absorbing R
    (hostStep (runHost st0 evs1) (.timeout R)) evs2 hsettled
  rw [hrun]
  refine ⟨hfinal.2, hfinal.1, ?_, rfl⟩
  simp [onValueResponse, hfinal.1]

theorem getValueExactlyOneOutcome_witness :
    ((["req_0"] : List String).Nodup ∧ "req_0" ∈ (["req_0"] : List String) ∧
      outcomesFor "req_0" ⟨["req_0"], []⟩ = 0) ∧
    (outcomesFor "req_0"
        (runHost ⟨["req_0"], []⟩
          ([] ++ HostEvent.timeout "req_0" :: [HostEvent.response "req_0" "late"])) = 1 ∧
      "req_0" ∉
        (runHost ⟨["req_0"], []⟩
          ([] ++ HostEvent.timeout "req_0" :: [HostEvent.response "req_0" "late"])).pending ∧
      onValueResponse
          (runHost ⟨["req_0"], []⟩
            ([] ++ HostEvent.timeout "req_0" :: [HostEvent.response "req_0" "late"]))
          "req_0" "late" =
        runHost ⟨["req_0"], []⟩
          ([] ++ HostEvent.timeout "req_0" :: [HostEvent.response "req_0" "late"]) ∧
      getValueTimeoutMs = 3000) :=
  ⟨⟨by decide, by decide, by decide⟩,
    getValueExactlyOneOutcome ⟨["req_0"], []⟩ []
      [HostEvent.response "req_0" "late"] "req_0" "late"
      (by decide) (by decide) (by decide)⟩

/-! ## Claim C6 -/

theorem texts_append : ∀ a b : List Node, texts (a ++ b) = texts a ++ texts b := by
  refine nodeListInd (fun a => ∀ b, texts (a ++ b) = texts a ++ texts b) ?_ ?_ ?_
  · intro b; simp [texts]
  · intro s r ih b; simp [texts, ih]
  · intro t a c r _ ihr b; simp [texts, ihr]

theorem texts_removeStyleAttrs :
    ∀ ns, texts (removeStyleAttrs ns) = texts ns := by
  refine nodeListInd (fun ns => texts (removeStyleAttrs ns) = texts ns) ?_ ?_ ?_
  · simp [removeStyleAttrs, keepAllowedAttrs, replaceFontsTop, unwrapTag, texts]
  · intro s r ih; simp [removeStyleAttrs, texts, ih]
  · intro t a c r ihc ihr; simp [removeStyleAttrs, texts, ihc, ihr]

theorem texts_keepAllowedAttrs :
    ∀ ns, texts (keepAllowedAttrs ns) = texts ns := by
  refine nodeListInd (fun ns => texts (keepAllowedAttrs ns) = texts ns) ?_ ?_ ?_
  · simp [removeStyleAttrs, keepAllowedAttrs, replaceFontsTop, unwrapTag, texts]
  · intro s r ih; simp [keepAllowedAttrs, texts, ih]
  · intro t a c r ihc ihr; simp [keepAllowedAttrs, texts, ihc, ihr]

theorem texts_replaceFontsTop :
    ∀ ns, texts (replaceFontsTop ns) = texts ns := by
  refine nodeListInd (fun ns => texts (replaceFontsTop ns) = texts ns) ?_ ?_ ?_
  · simp [removeStyleAttrs, keepAllowedAttrs, replaceFontsTop, unwrapTag, texts]
  · intro s r ih; simp [replaceFontsTop, texts, ih]
  · intro t a c r ihc ihr
    by_cases h : t = "font"
    · simp [replaceFontsTop, h, texts, ihr]
    · simp [replaceFontsTop, h, texts, ihc, ihr]

theorem texts_unwrapTag (t : String) :
    ∀ ns, texts (unwrapTag t ns) = texts ns := by
  refine nodeListInd (fun ns => texts (unwrapTag t ns) = texts ns) ?_ ?_ ?_
  · simp [removeStyleAttrs, keepAllowedAttrs, replaceFontsTop, unwrapTag, texts]
  · intro s r ih; simp [unwrapTag, texts, ih]
  · intro tg a c r ihc ihr
    by_cases h : tg = t
    · simp [unwrapTag, h, texts_append, texts, ihc, ihr]
    · simp [unwrapTag, h, texts, ihc, ihr]

/-- C6: the sanitizer never loses text content.  It removes only
attributes and wrapper structure — style attributes, attributes outside
the allow-list, font elements, and the unwrap-list elements, whose
children are kept — and on arbitrarily nested input the sequence of
visible text nodes of the output is exactly that of the input. -/
theorem sanitizeKeepsTexts (ns : List Node) : texts (cleanHtml ns) = texts ns := by
  show texts (tagsToRemove.foldl (fun acc t => unwrapTag t acc)
    (replaceFontsTop (keepAllowedAttrs (removeStyleAttrs ns)))) = texts ns
  simp only [tagsToRemove, List.foldl_cons, List.foldl_nil]
  rw [texts_unwrapTag, texts_unwrapTag, texts_unwrapTag, texts_unwrapTag,
    texts_unwrapTag, texts_replaceFontsTop, texts_keepAllowedAttrs,
    texts_removeStyleAttrs]

/-! ## Claim C5 -/

def hasTag (t : String) : List Node → Bool
  | [] => false
  | .text _ :: r => hasTag t r
  | .elem tg _ c :: r => tg = t || hasTag t c || hasTag t r

/-- No font element occurs anywhere inside another font element.  Inputs
outside this class hit the stale-snapshot behaviour of the font pass (the
copy of an inner font made by the `innerHTML` assignment is not in the
`querySelectorAll` snapshot and survives one sanitizer run). -/
def noNestedFont : List Node → Bool
  | [] => true
  | .text _ :: r => noNestedFont r
  | .elem tg _ c :: r =>
    (if tg = "font" then !hasTag "font" c else noNestedFont c) && noNestedFont r

def allowedAttrName (n : String) : Bool := n = "href" || n = "target"

/-- Every element of the fragment carries only allow-listed attributes. -/
def attrsAllowed : List Node → Bool
  | [] => true
  | .text _ :: r => attrsAllowed r
  | .elem _ a c :: r =>
    a.all (fun p => allowedAttrName p.1) && attrsAllowed c && attrsAllowed r

theorem hasTag_append (t : String) :
    ∀ a b : List Node, hasTag t (a ++ b) = (hasTag t a || hasTag t b) := by
  refine nodeListInd
    (fun a => ∀ b, hasTag t (a ++ b) = (hasTag t a || hasTag t b)) ?_ ?_ ?_
  · intro b; simp [hasTag]
  · intro s r ih b; simp [hasTag, ih]
  · intro tg a c r _ ihr b; simp [hasTag, ihr, Bool.or_assoc]

theorem attrsAllowed_append :
    ∀ a b : List Node, attrsAllowed (a ++ b) = (attrsAllowed a && attrsAllowed b) := by
  refine nodeListInd
    (fun a => ∀ b, attrsAllowed (a ++ b) = (attrsAllowed a && attrsAllowed b)) ?_ ?_ ?_
  · intro b; simp [attrsAllowed]
  · intro s r ih b; simp [attrsAllowed, ih]
  · intro tg a c r _ ihr b; simp [attrsAllowed, ihr, Bool.and_assoc]

theorem hasTag_removeStyleAttrs (t : String) :
    ∀ ns, hasTag t (removeStyleAttrs ns) = hasTag t ns := by
  refine nodeListInd (fun ns => hasTag t (removeStyleAttrs ns) = hasTag t ns) ?_ ?_ ?_
  · simp [removeStyleAttrs, keepAllowedAttrs, replaceFontsTop, unwrapTag, texts, hasTag, noNestedFont, attrsAllowed]
  · intro s r ih; simp [removeStyleAttrs, hasTag, ih]
  · intro tg a c r ihc ihr; simp [removeStyleAttrs, hasTag, ihc, ihr]

theorem hasTag_keepAllowedAttrs (t : String) :
    ∀ ns, hasTag t (keepAllowedAttrs ns) = hasTag t ns := by
  refine nodeListInd (fun ns => hasTag t (keepAllowedAttrs ns) = hasTag t ns) ?_ ?_ ?_
  · simp [removeStyleAttrs, keepAllowedAttrs, replaceFontsTop, unwrapTag, texts, hasTag, noNestedFont, attrsAllowed]
  · intro s r ih; simp [keepAllowedAttrs, hasTag, ih]
  · intro tg a c r ihc ihr; simp [keepAllowedAttrs, hasTag, ihc, ihr]

theorem noNestedFont_removeStyleAttrs :
    ∀ ns, noNestedFont (removeStyleAttrs ns) = noNestedFont ns := by
  refine nodeListInd (fun ns => noNestedFont (removeStyleAttrs ns) = noNestedFont ns) ?_ ?_ ?_
  · simp [removeStyleAttrs, keepAllowedAttrs, replaceFontsTop, unwrapTag, texts, hasTag, noNestedFont, attrsAllowed]
  · intro s r ih; simp [removeStyleAttrs, noNestedFont, ih]
  · intro tg a c r ihc ihr
    simp [removeStyleAttrs, noNestedFont, ihc, ihr, hasTag_removeStyleAttrs]

theorem noNestedFont_keepAllowedAttrs :
    ∀ ns, noNestedFont (keepAllowedAttrs ns) = noNestedFont ns := by
  refine nodeListInd (fun ns => noNestedFont (keepAllowedAttrs ns) = noNestedFont ns) ?_ ?_ ?_
  · simp [removeStyleAttrs, keepAllowedAttrs, replaceFontsTop, unwrapTag, texts, hasTag, noNestedFont, attrsAllowed]
  · intro s r ih; simp [keepAllowedAttrs, noNestedFont, ih]
  · intro tg a c r ihc ihr
    simp [keepAllowedAttrs, noNestedFont, ihc, ihr, hasTag_keepAllowedAttrs]

theorem attrsAllowed_keepAllowedAttrs :
    ∀ ns, attrsAllowed (keepAllowedAttrs ns) = true := by
  refine nodeListInd (fun ns => attrsAllowed (keepAllowedAttrs ns) = true) ?_ ?_ ?_
  · simp [removeStyleAttrs, keepAllowedAttrs, replaceFontsTop, unwrapTag, texts, hasTag, noNestedFont, attrsAllowed]
  · intro s r ih; simp [keepAllowedAttrs, attrsAllowed, ih]
  · intro tg a c r ihc ihr
    simp only [keepAllowedAttrs, attrsAllowed, ihc, ihr, Bool.and_true]
    rw [List.all_eq_true]
    intro p hp
    have := (List.mem_filter.mp hp).2
    simpa [allowedAttrName] using this

theorem attrsAllowed_replaceFontsTop (ns : List Node)
    (h : attrsAllowed ns = true) : attrsAllowed (replaceFontsTop ns) = true := by
  induction ns using nodeListInd with
  | h1 => simp [removeStyleAttrs, keepAllowedAttrs, replaceFontsTop, unwrapTag, texts, hasTag, noNestedFont, attrsAllowed]
  | h2 s r ih =>
    simp only [attrsAllowed] at h
    simp [replaceFontsTop, attrsAllowed, ih h]
  | h3 tg a c r ihc ihr =>
    simp only [attrsAllowed, Bool.and_eq_true] at h
    by_cases hf : tg = "font"
    · simp [replaceFontsTop, hf, attrsAllowed, h.1.2, ihr h.2]
    · simp [replaceFontsTop, hf, attrsAllowed, h.1.1, ihc h.1.2, ihr h.2]

theorem hasFont_replaceFontsTop (ns : List Node)
    (h : noNestedFont ns = true) : hasTag "font" (replaceFontsTop ns) = false := by
  induction ns using nodeListInd with
  | h1 => simp [removeStyleAttrs, keepAllowedAttrs, replaceFontsTop, unwrapTag, texts, hasTag, noNestedFont, attrsAllowed]
  | h2 s r ih =>
    simp only [noNestedFont] at h
    simp [replaceFontsTop, hasTag, ih h]
  | h3 tg a c r ihc ihr =>
    simp only [noNestedFont, Bool.and_eq_true] at h
    by_cases hf : tg = "font"
    · have hc : hasTag "font" c = false := by
        have := h.1
        rw [if_pos hf] at this
        simpa using this
      simp [replaceFontsTop, hf, hasTag, hc, ihr h.2]
    · have hc : noNestedFont c = true := by
        have := h.1
        rwa [if_neg hf] at this
      simp [replaceFontsTop, hf, hasTag, ihc hc, ihr h.2]

theorem hasTag_unwrapTag_self (t : String) :
    ∀ ns, hasTag t (unwrapTag t ns) = false := by
  refine nodeListInd (fun ns => hasTag t (unwrapTag t ns) = false) ?_ ?_ ?_
  · simp [removeStyleAttrs, keepAllowedAttrs, replaceFontsTop, unwrapTag, texts, hasTag, noNestedFont, attrsAllowed]
  · intro s r ih; simp [unwrapTag, hasTag, ih]
  · intro tg a c r ihc ihr
    by_cases h : tg = t
    · simp [unwrapTag, h, hasTag_append, ihc, ihr]
    · simp [unwrapTag, h, hasTag, ihc, ihr]

theorem hasTag_unwrapTag_mono (s t : String) (ns : List Node)
    (h : hasTag s ns = false) : hasTag s (unwrapTag t ns) = false := by
  induction ns using nodeListInd with
  | h1 => simp [removeStyleAttrs, keepAllowedAttrs, replaceFontsTop, unwrapTag, texts, hasTag, noNestedFont, attrsAllowed]
  | h2 x r ih =>
    simp only [hasTag] at h
    simp [unwrapTag, hasTag, ih h]
  | h3 tg a c r ihc ihr =>
    simp only [hasTag, Bool.or_eq_false_iff] at h
    by_cases hx : tg = t
    · simp [unwrapTag, hx, hasTag_append, ihc h.1.2, ihr h.2]
    · simp [unwrapTag, hx, hasTag, h.1.1, ihc h.1.2, ihr h.2]

theorem attrsAllowed_unwrapTag (t : String) (ns : List Node)
    (h : attrsAllowed ns = true) : attrsAllowed (unwrapTag t ns) = true := by
  induction ns using nodeListInd with
  | h1 => simp [removeStyleAttrs, keepAllowedAttrs, replaceFontsTop, unwrapTag, texts, hasTag, noNestedFont, attrsAllowed]
  | h2 x r ih =>
    simp only [attrsAllowed] at h
    simp [unwrapTag, attrsAllowed, ih h]
  | h3 tg a c r ihc ihr =>
    simp only [attrsAllowed, Bool.and_eq_true] at h
    by_cases hx : tg = t
    · simp [unwrapTag, hx, attrsAllowed_append, ihc h.1.2, ihr h.2]
    · simp [unwrapTag, hx, attrsAllowed, h.1.1, ihc h.1.2, ihr h.2]

theorem removeStyleAttrs_id (ns : List Node)
    (h : attrsAllowed ns = true) : removeStyleAttrs ns = ns := by
  induction ns using nodeListInd with
  | h1 => simp [removeStyleAttrs, keepAllowedAttrs, replaceFontsTop, unwrapTag, texts, hasTag, noNestedFont, attrsAllowed]
  | h2 s r ih =>
    simp only [attrsAllowed] at h
    simp [removeStyleAttrs, ih h]
  | h3 tg a c r ihc ihr =>
    simp only [attrsAllowed, Bool.and_eq_true] at h
    have ha : a.filter (fun p => p.1 ≠ "style") = a := by
      refine List.filter_eq_self.mpr ?_
      intro q hq
      have hx := List.all_eq_true.mp h.1.1 q hq
      simp only [allowedAttrName, Bool.or_eq_true, decide_eq_true_eq] at hx
      rcases hx with h1 | h1 <;> simp [h1]
    simp only [removeStyleAttrs, ha, ihc h.1.2, ihr h.2]

theorem keepAllowedAttrs_id (ns : List Node)
    (h : attrsAllowed ns = true) : keepAllowedAttrs ns = ns := by
  induction ns using nodeListInd with
  | h1 => simp [removeStyleAttrs, keepAllowedAttrs, replaceFontsTop, unwrapTag, texts, hasTag, noNestedFont, attrsAllowed]
  | h2 s r ih =>
    simp only [attrsAllowed] at h
    simp [keepAllowedAttrs, ih h]
  | h3 tg a c r ihc ihr =>
    simp only [attrsAllowed, Bool.and_eq_true] at h
    have ha : a.filter (fun p => p.1 = "href" || p.1 = "target") = a := by
      refine List.filter_eq_self.mpr ?_
      intro q hq
      have hx := List.all_eq_true.mp h.1.1 q hq
      simpa [allowedAttrName] using hx
    simp only [keepAllowedAttrs, ha, ihc h.1.2, ihr h.2]

theorem replaceFontsTop_id (ns : List Node)
    (h : hasTag "font" ns = false) : replaceFontsTop ns = ns := by
  induction ns using nodeListInd with
  | h1 => simp [removeStyleAttrs, keepAllowedAttrs, replaceFontsTop, unwrapTag, texts, hasTag, noNestedFont, attrsAllowed]
  | h2 s r ih =>
    simp only [hasTag] at h
    simp [replaceFontsTop, ih h]
  | h3 tg a c r ihc ihr =>
    simp only [hasTag, Bool.or_eq_false_iff] at h
    have hf : ¬ tg = "font" := by
      intro hx
      have := h.1.1
      simp [hx] at this
    simp [replaceFontsTop, hf, ihc h.1.2, ihr h.2]

theorem unwrapTag_id (t : String) (ns : List Node)
    (h : hasTag t ns = false) : unwrapTag t ns = ns := by
  induction ns using nodeListInd with
  | h1 => simp [removeStyleAttrs, keepAllowedAttrs, replaceFontsTop, unwrapTag, texts, hasTag, noNestedFont, attrsAllowed]
  | h2 s r ih =>
    simp only [hasTag] at h
    simp [unwrapTag, ih h]
  | h3 tg a c r ihc ihr =>
    simp only [hasTag, Bool.or_eq_false_iff] at h
    have hf : ¬ tg = t := by
      intro hx
      have := h.1.1
      simp [hx] at this
    simp [unwrapTag, hf, ihc h.1.2, ihr h.2]

/-- C5 fails on the code: one sanitizer pass over nested font elements
leaves a font element behind (the stale-snapshot behaviour of the font
replacement pass), and a second pass removes it, so `sanitize` is not
idempotent. -/
theorem sanitizeIdem_cex :
    ¬ (∀ ns : List Node, cleanHtml (cleanHtml ns) = cleanHtml ns) := by
  intro h
  have h1 : cleanHtml [Node.elem "font" [] [Node.elem "font" [] [Node.text "x"]]] =
      [Node.elem "font" [] [Node.text "x"]] := by
    simp [cleanHtml, tagsToRemove, removeStyleAttrs, keepAllowedAttrs,
      replaceFontsTop, unwrapTag]
  have h2 : cleanHtml [Node.elem "font" [] [Node.text "x"]] = [Node.text "x"] := by
    simp [cleanHtml, tagsToRemove, removeStyleAttrs, keepAllowedAttrs,
      replaceFontsTop, unwrapTag]
  have h3 := h [Node.elem "font" [] [Node.elem "font" [] [Node.text "x"]]]
  rw [h1, h2] at h3
  exact absurd h3 (by simp)

/-- C5 amended: the sanitizer is idempotent on every fragment in which no
font element is nested inside another font element.  (On nested fonts a
single pass leaves an unreplaced font copy behind, which the next pass
removes.)  After one pass such a fragment carries only allow-listed
attributes and none of the font/unwrap-list tags, so every pass of a
second run is the identity. -/
theorem sanitizeIdemNoNestedFont (ns : List Node)
    (h : noNestedFont ns = true) : cleanHtml (cleanHtml ns) = cleanHtml ns := by
  have hcle : ∀ ms : List Node, cleanHtml ms =
      unwrapTag "u" (unwrapTag "article" (unwrapTag "section" (unwrapTag "div"
        (unwrapTag "span"
          (replaceFontsTop (keepAllowedAttrs (removeStyleAttrs ms))))))) := by
    intro ms
    show List.foldl _ _ _ = _
    simp only [tagsToRemove, List.foldl_cons, List.foldl_nil]
  set Y := replaceFontsTop (keepAllowedAttrs (removeStyleAttrs ns)) with hY
  have hYattrs : attrsAllowed Y = true := by
    rw [hY]
    exact attrsAllowed_replaceFontsTop _ (attrsAllowed_keepAllowedAttrs _)
  have hYfont : hasTag "font" Y = false := by
    rw [hY]
    refine hasFont_replaceFontsTop _ ?_
    rw [noNestedFont_keepAllowedAttrs, noNestedFont_removeStyleAttrs]
    exact h
  set Z := unwrapTag "u" (unwrapTag "article" (unwrapTag "section" (unwrapTag "div"
    (unwrapTag "span" Y)))) with hZ
  have hclean : cleanHtml ns = Z := by rw [hcle ns, hZ]
  have hZattrs : attrsAllowed Z = true := by
    rw [hZ]
    exact attrsAllowed_unwrapTag _ _ (attrsAllowed_unwrapTag _ _
      (attrsAllowed_unwrapTag _ _ (attrsAllowed_unwrapTag _ _
        (attrsAllowed_unwrapTag _ _ hYattrs))))
  have hZfont : hasTag "font" Z = false := by
    rw [hZ]
    exact hasTag_unwrapTag_mono _ _ _ (hasTag_unwrapTag_mono _ _ _
      (hasTag_unwrapTag_mono _ _ _ (hasTag_unwrapTag_mono _ _ _
        (hasTag_unwrapTag_mono _ _ _ hYfont))))
  have hZspan : hasTag "span" Z = false := by
    rw [hZ]
    exact hasTag_unwrapTag_mono _ _ _ (hasTag_unwrapTag_mono _ _ _
      (hasTag_unwrapTag_mono _ _ _ (hasTag_unwrapTag_mono _ _ _
        (hasTag_unwrapTag_self _ _))))
  have hZdiv : hasTag "div" Z = false := by
    rw [hZ]
    exact hasTag_unwrapTag_mono _ _ _ (hasTag_unwrapTag_mono _ _ _
      (hasTag_unwrapTag_mono _ _ _ (hasTag_unwrapTag_self _ _)))
  have hZsection : hasTag "section" Z = false := by
    rw [hZ]
    exact hasTag_unwrapTag_mono _ _ _ (hasTag_unwrapTag_mono _ _ _
      (hasTag_unwrapTag_self _ _))
  have hZarticle : hasTag "article" Z = false := by
    rw [hZ]
    exact hasTag_unwrapTag_mono _ _ _ (hasTag_unwrapTag_self _ _)
  have hZu : hasTag "u" Z = false := by
    rw [hZ]
    exact hasTag_unwrapTag_self _ _
  rw [hclean, hcle Z]
  rw [removeStyleAttrs_id _ hZattrs, keepAllowedAttrs_id _ hZattrs,
    replaceFontsTop_id _ hZfont, unwrapTag_id _ _ hZspan, unwrapTag_id _ _ hZdiv,
    unwrapTag_id _ _ hZsection, unwrapTag_id _ _ hZarticle, unwrapTag_id _ _ hZu]

theorem sanitizeIdemNoNestedFont_witness :
    noNestedFont [Node.elem "font" [("style", "color:red")] [Node.text "x"],
      Node.elem "div" [] [Node.text "y"]] = true ∧
    cleanHtml (cleanHtml [Node.elem "font" [("style", "color:red")] [Node.text "x"],
        Node.elem "div" [] [Node.text "y"]]) =
      cleanHtml [Node.elem "font" [("style", "color:red")] [Node.text "x"],
        Node.elem "div" [] [Node.text "y"]] :=
  ⟨by simp [noNestedFont, hasTag],
    sanitizeIdemNoNestedFont _ (by simp [noNestedFont, hasTag])⟩

/-! ## Claim C8 -/

/-- C8: every paragraph group with at least two non-blank lines of which
at least one starts with a bullet marker (the bullet character or a dash)
or an ordinal marker (digits followed by a dot) is rendered as an
unordered list with one item per line, the leading marker stripped from
each item; in particular promoting the two lines of the bullet scenario
yields the two-item unordered list with item texts stripped of their
markers. -/
theorem listGroupsRenderAsUl :
    (∀ p : List Char,
        2 ≤ ((splitLines p).filter trimmedNonempty).length →
        (((splitLines p).filter trimmedNonempty).map trimL).any isMarkerLine = true →
        renderGroup p =
          ('<' :: 'u' :: 'l' :: '>' :: []) ++
            ((((splitLines p).filter trimmedNonempty).map trimL).map
              (fun i => ('<' :: 'l' :: 'i' :: '>' :: []) ++ stripMarker i ++
                ('<' :: '/' :: 'l' :: 'i' :: '>' :: []))).flatten ++
            ('<' :: '/' :: 'u' :: 'l' :: '>' :: [])) ∧
    textToHtml "• foo\n• bar" = "<ul><li>foo</li><li>bar</li></ul>" := by
  constructor
  · intro p hlen hmark
    have h0 : ¬ ((splitLines p).filter trimmedNonempty).length = 0 := by omega
    have h1 : ¬ ((splitLines p).filter trimmedNonempty).length = 1 := by omega
    simp only [renderGroup]
    rw [if_neg h0, if_neg h1, if_pos hmark]
  · decide

theorem listGroupsRenderAsUl_witness :
    (2 ≤ ((splitLines ("• foo\n• bar").data).filter trimmedNonempty).length ∧
      ((((splitLines ("• foo\n• bar").data).filter trimmedNonempty).map trimL).any
        isMarkerLine = true)) ∧
    renderGroup ("• foo\n• bar").data = ("<ul><li>foo</li><li>bar</li></ul>").data := by
  refine ⟨⟨by decide, by decide⟩, ?_⟩
  rw [listGroupsRenderAsUl.1 ("• foo\n• bar").data (by decide) (by decide)]
  decide

/-! ## Claim C7

The claim quantifies over markup-free texts and asserts that the promoted
output consists only of `p`, `ul`/`li` and `br` elements.  An element
token of a serialized fragment is a maximal run of ASCII letters
immediately following a `<` character; `tagNamesGo` collects these
would-be tag names. -/

/-- A text in which `<` is never immediately followed by an ASCII letter:
no substring of it can open an HTML tag. -/
def safeText : List Char → Bool
  | [] => true
  | [_] => true
  | x :: y :: r => !(x = '<' && y.isAlpha) && safeText (y :: r)

/-- Scanner collecting the would-be tag names of a serialized fragment:
every maximal run of ASCII letters immediately following a `<`.  The
first argument is `some acc` while inside such a run, `acc` holding its
characters in reverse. -/
def tagNamesGo : Option (List Char) → List Char → List (List Char)
  | none, [] => []
  | some acc, [] => if acc.isEmpty then [] else [acc.reverse]
  | none, c :: r => if c = '<' then tagNamesGo (some []) r else tagNamesGo none r
  | some acc, c :: r =>
    if c.isAlpha then tagNamesGo (some (c :: acc)) r
    else
      (if acc.isEmpty then [] else [acc.reverse]) ++
        (if c = '<' then tagNamesGo (some []) r else tagNamesGo none r)

def tagNamesIn (l : List Char) : List (List Char) := tagNamesGo none l

def allowedTag (n : List Char) : Bool :=
  n = ['p'] || n = ['u', 'l'] || n = ['l', 'i'] || n = ['b', 'r']

def onlyAllowedTags (l : List Char) : Bool := (tagNamesIn l).all allowedTag

example : onlyAllowedTags ("<p>a<br>b</p>").data = true := by decide
example : onlyAllowedTags ("<p>a <q</p>").data = false := by decide
example : tagNamesIn ("<p>a <q</p>").data = [['p'], ['q']] := by decide

/-- C7 fails on the code: the promoter never escapes the text it wraps,
so a text that passes the markup test (`looksLikeMarkup` is false because
it has no closing `>`) can still inject an element token.  The input
`"a <q"` is promoted to `"<p>a <q</p>"`, whose element tokens are `p` and
`q` — the output does not consist only of `p`, `ul`/`li` and `br`
elements, and the raw text of the input, unescaped `<` included, appears
in the output. -/
theorem promoteOnlyAllowedTags_cex :
    ¬ (∀ t : String, looksLikeMarkup t = false →
        onlyAllowedTags (textToHtml t).data = true ∧
        (t ≠ "" → textToHtml t ≠ t) ∧ textToHtml "" = "") := by
  intro h
  have hx := (h "a <q" (by decide)).1
  revert hx
  decide

theorem safeText_tail (c : Char) (r : List Char) (h : safeText (c :: r) = true) :
    safeText r = true := by
  cases r with
  | nil => rfl
  | cons d r2 =>
    simp only [safeText, Bool.and_eq_true] at h
    exact h.2

theorem safeText_append_right :
    ∀ a b : List Char, safeText (a ++ b) = true → safeText b = true := by
  intro a
  induction a with
  | nil => intro b h; exact h
  | cons c r ih => intro b h; exact ih b (safeText_tail c (r ++ b) h)

theorem safeText_append_left :
    ∀ a b : List Char, safeText (a ++ b) = true → safeText a = true := by
  intro a
  induction a with
  | nil => intro b _; rfl
  | cons c r ih =>
    intro b h
    cases r with
    | nil => rfl
    | cons d r2 =>
      have h2 : safeText (d :: r2) = true :=
        ih b (safeText_tail c (d :: r2 ++ b) h)
      simp only [List.cons_append, safeText, Bool.and_eq_true] at h
      simp only [safeText, Bool.and_eq_true]
      exact ⟨h.1, h2⟩

theorem safeText_suffix (a l : List Char) (h : safeText l = true)
    (hs : a <:+ l) : safeText a = true := by
  obtain ⟨pre, hpre⟩ := hs
  exact safeText_append_right pre a (hpre ▸ h)

theorem safeText_take_prefix (a l : List Char) (h : safeText l = true)
    (hs : a <+: l) : safeText a = true := by
  obtain ⟨post, hpost⟩ := hs
  exact safeText_append_left a post (hpost ▸ h)

theorem safeText_dropWhile (p : Char → Bool) (l : List Char)
    (h : safeText l = true) : safeText (l.dropWhile p) = true :=
  safeText_suffix _ l h (List.dropWhile_suffix p)

theorem safeText_trimL (l : List Char) (h : safeText l = true) :
    safeText (trimL l) = true := by
  have h1 : safeText (l.dropWhile Char.isWhitespace) = true :=
    safeText_dropWhile _ _ h
  show safeText (dropTrailingWs (l.dropWhile Char.isWhitespace)) = true
  set m := l.dropWhile Char.isWhitespace with hm
  have hs : (m.reverse.dropWhile Char.isWhitespace).reverse <+: m := by
    obtain ⟨pre, hpre⟩ := List.dropWhile_suffix (l := m.reverse) Char.isWhitespace
    refine ⟨pre.reverse, ?_⟩
    have hx := congrArg List.reverse hpre
    simpa [List.reverse_append] using hx
  exact safeText_take_prefix _ m h1 hs

theorem safeText_stripBullet (l : List Char) (h : safeText l = true) :
    safeText (stripBullet l) = true := by
  cases l with
  | nil => rfl
  | cons c r =>
    by_cases hc : c = '•' || c = '-'
    · simp only [stripBullet, hc, if_true]
      exact safeText_dropWhile _ _ (safeText_tail c r h)
    · simpa only [stripBullet, hc, if_false] using h

theorem safeText_stripOrdinal (l : List Char) (h : safeText l = true) :
    safeText (stripOrdinal l) = true := by
  unfold stripOrdinal
  by_cases he : (l.takeWhile Char.isDigit).isEmpty = true
  · rw [if_pos he]; exact h
  · rw [if_neg he]
    by_cases hdot : (l.dropWhile Char.isDigit).head? = some '.'
    · rw [if_pos hdot]
      have hsuf : safeText (l.dropWhile Char.isDigit) = true :=
        safeText_dropWhile _ _ h
      refine safeText_dropWhile _ _ ?_
      cases hd : l.dropWhile Char.isDigit with
      | nil => simp [hd] at hdot
      | cons c r =>
        simp only [hd, List.tail_cons]
        exact safeText_tail c r (hd ▸ hsuf)
    · rw [if_neg hdot]; exact h

theorem safeText_stripMarker (l : List Char) (h : safeText l = true) :
    safeText (stripMarker l) = true :=
  safeText_stripOrdinal _ (safeText_stripBullet _ h)

theorem splitLines_ne_nil : ∀ l, splitLines l ≠ [] := by
  intro l
  induction l with
  | nil => simp [splitLines]
  | cons c r ih =>
    by_cases hc : c = '\n'
    · simp [splitLines, hc]
    · simp only [splitLines, if_neg hc]
      cases hsp : splitLines r with
      | nil => exact absurd hsp ih
      | cons h t => simp [consHead]

theorem splitLines_head_shape : ∀ r h t, splitLines r = h :: t →
    h = [] ∨ ∃ d r2 h2, r = d :: r2 ∧ h = d :: h2 := by
  intro r h t hsp
  cases r with
  | nil =>
    simp only [splitLines] at hsp
    exact Or.inl (by injection hsp with h1 _; exact h1.symm)
  | cons d r2 =>
    by_cases hd : d = '\n'
    · rw [splitLines, if_pos hd] at hsp
      exact Or.inl (by injection hsp with h1 _; exact h1.symm)
    · rw [splitLines, if_neg hd] at hsp
      cases hsp2 : splitLines r2 with
      | nil => exact absurd hsp2 (splitLines_ne_nil r2)
      | cons h2 t2 =>
        rw [hsp2] at hsp
        simp only [consHead] at hsp
        injection hsp with h1 _
        exact Or.inr ⟨d, r2, h2, rfl, h1.symm⟩

theorem safeText_mem_splitLines : ∀ g, safeText g = true →
    ∀ l ∈ splitLines g, safeText l = true := by
  intro g
  induction g with
  | nil =>
    intro _ l hl
    simp only [splitLines, List.mem_singleton] at hl
    subst hl; rfl
  | cons c r ih =>
    intro hsafe l hl
    have hr : safeText r = true := safeText_tail c r hsafe
    by_cases hc : c = '\n'
    · rw [splitLines, if_pos hc] at hl
      rcases List.mem_cons.mp hl with rfl | hl
      · rfl
      · exact ih hr l hl
    · rw [splitLines, if_neg hc] at hl
      cases hsp : splitLines r with
      | nil => exact absurd hsp (splitLines_ne_nil r)
      | cons h t =>
        rw [hsp] at hl
        simp only [consHead] at hl
        rcases List.mem_cons.mp hl with rfl | hl
        · have hh : safeText h = true := by
            refine ih hr h ?_
            rw [hsp]; exact List.mem_cons_self h t
          rcases splitLines_head_shape r h t hsp with rfl | ⟨d, r2, h2, hr2, rfl⟩
          · rfl
          · subst hr2
            simp only [safeText, Bool.and_eq_true] at hsafe ⊢
            exact ⟨hsafe.1, hh⟩
        · exact ih hr l (by rw [hsp]; exact List.mem_cons_of_mem h hl)

theorem splitPara_ne_nil : ∀ l, splitPara l ≠ [] := by
  intro l
  induction l using splitPara.induct with
  | case1 => simp [splitPara]
  | case2 c => simp [splitPara]
  | case3 c d r hcond ih => simp [splitPara, hcond]
  | case4 c d r hcond ih =>
    simp only [splitPara, if_neg hcond]
    cases hsp : splitPara (d :: r) with
    | nil => exact absurd hsp ih
    | cons h t => simp [consHead]

theorem splitPara_head_shape : ∀ r h t, splitPara r = h :: t →
    h = [] ∨ ∃ d r2 h2, r = d :: r2 ∧ h = d :: h2 := by
  intro r h t hsp
  match r with
  | [] =>
    simp only [splitPara] at hsp
    exact Or.inl (by injection hsp with h1 _; exact h1.symm)
  | [c] =>
    simp only [splitPara] at hsp
    exact Or.inr ⟨c, [], [], rfl, by injection hsp with h1 _; exact h1.symm⟩
  | c :: d :: r2 =>
    by_cases hcond : c = '\n' ∧ d = '\n'
    · rw [splitPara, if_pos hcond] at hsp
      exact Or.inl (by injection hsp with h1 _; exact h1.symm)
    · rw [splitPara, if_neg hcond] at hsp
      cases hsp2 : splitPara (d :: r2) with
      | nil => exact absurd hsp2 (splitPara_ne_nil _)
      | cons h2 t2 =>
        rw [hsp2] at hsp
        simp only [consHead] at hsp
        injection hsp with h1 _
        exact Or.inr ⟨c, d :: r2, h2, rfl, h1.symm⟩

theorem safeText_mem_splitPara : ∀ g, safeText g = true →
    ∀ l ∈ splitPara g, safeText l = true := by
  intro g
  induction g using splitPara.induct with
  | case1 =>
    intro _ l hl
    simp only [splitPara, List.mem_singleton] at hl
    subst hl; rfl
  | case2 c =>
    intro _ l hl
    simp only [splitPara, List.mem_singleton] at hl
    subst hl; rfl
  | case3 c d r hcond ih =>
    intro hsafe l hl
    have hr : safeText r = true :=
      safeText_tail d r (safeText_tail c (d :: r) hsafe)
    rw [splitPara, if_pos hcond] at hl
    rcases List.mem_cons.mp hl with rfl | hl
    · rfl
    · exact ih hr l hl
  | case4 c d r hcond ih =>
    intro hsafe l hl
    have hdr : safeText (d :: r) = true := safeText_tail c (d :: r) hsafe
    rw [splitPara, if_neg hcond] at hl
    cases hsp : splitPara (d :: r) with
    | nil => exact absurd hsp (splitPara_ne_nil _)
    | cons h t =>
      rw [hsp] at hl
      simp only [consHead] at hl
      rcases List.mem_cons.mp hl with rfl | hl
      · have hh : safeText h = true := by
          refine ih hdr h ?_
          rw [hsp]; exact List.mem_cons_self h t
        rcases splitPara_head_shape (d :: r) h t hsp with rfl | ⟨d2, r2, h2, hdr2, rfl⟩
        · rfl
        · injection hdr2 with hd2 hr2
          subst hd2
          simp only [safeText, Bool.and_eq_true] at hsafe ⊢
          exact ⟨hsafe.1, hh⟩
      · exact ih hdr l (by rw [hsp]; exact List.mem_cons_of_mem h hl)

theorem tagNamesGo_someNil (l : List Char)
    (h : ∀ c, l.head? = some c → c.isAlpha = false) :
    tagNamesGo (some []) l = tagNamesGo none l := by
  cases l with
  | nil => rfl
  | cons c r =>
    have hc : c.isAlpha = false := h c rfl
    simp [tagNamesGo, hc]

/-- Scanning a safe text followed by nothing or by a block that starts
with `<` contributes no tag names. -/
theorem tagNamesGo_safe_append : ∀ a, safeText a = true → ∀ b,
    (b = [] ∨ b.head? = some '<') →
    tagNamesGo none (a ++ b) = tagNamesGo none b := by
  intro a
  induction a with
  | nil => intro _ b _; rfl
  | cons c r ih =>
    intro hsafe b hb
    by_cases hc : c = '<'
    · subst hc
      cases r with
      | nil =>
        rcases hb with rfl | hb
        · rfl
        · cases b with
          | nil => simp at hb
          | cons e r2 =>
            have he : e = '<' := by simpa using hb
            subst he
            calc tagNamesGo none (['<'] ++ '<' :: r2)
                = tagNamesGo (some []) ('<' :: r2) := by simp [tagNamesGo]
              _ = tagNamesGo none ('<' :: r2) := by
                  refine tagNamesGo_someNil _ ?_
                  intro e2 he2
                  simp only [List.head?_cons, Option.some.injEq] at he2
                  subst he2; rfl
      | cons d r2 =>
        have hsafe2 := hsafe
        simp only [safeText, Bool.and_eq_true, Bool.not_eq_eq_eq_not,
          Bool.not_true, Bool.and_eq_false_iff] at hsafe2
        have hd : d.isAlpha = false := by
          rcases hsafe2.1 with h1 | h1
          · simp at h1
          · exact h1
        calc tagNamesGo none ('<' :: d :: r2 ++ b)
            = tagNamesGo (some []) (d :: (r2 ++ b)) := by simp [tagNamesGo]
          _ = tagNamesGo none (d :: (r2 ++ b)) := by
              refine tagNamesGo_someNil _ ?_
              intro e2 he2
              simp only [List.head?_cons, Option.some.injEq] at he2
              subst he2; exact hd
          _ = tagNamesGo none (d :: r2 ++ b) := by simp
          _ = tagNamesGo none b := ih (safeText_tail _ _ hsafe) b hb
    · have hstep : tagNamesGo none (c :: (r ++ b)) = tagNamesGo none (r ++ b) := by
        simp [tagNamesGo, hc]
      rw [List.cons_append, hstep]
      exact ih (safeText_tail _ _ hsafe) b hb

/-- Specialization of the safe-append lemma to a continuation that
starts with an explicit angle bracket. -/
theorem tagNamesGo_safe_cons (a : List Char) (h : safeText a = true)
    (r : List Char) :
    tagNamesGo none (a ++ '<' :: r) = tagNamesGo none ('<' :: r) :=
  tagNamesGo_safe_append a h ('<' :: r) (Or.inr rfl)

theorem tagNames_p_open (rest : List Char) :
    tagNamesGo none ('<' :: 'p' :: '>' :: rest) = ['p'] :: tagNamesGo none rest := rfl

theorem tagNames_ul_open (rest : List Char) :
    tagNamesGo none ('<' :: 'u' :: 'l' :: '>' :: rest) =
      ['u', 'l'] :: tagNamesGo none rest := rfl

theorem tagNames_li_open (rest : List Char) :
    tagNamesGo none ('<' :: 'l' :: 'i' :: '>' :: rest) =
      ['l', 'i'] :: tagNamesGo none rest := rfl

theorem tagNames_br_open (rest : List Char) :
    tagNamesGo none ('<' :: 'b' :: 'r' :: '>' :: rest) =
      ['b', 'r'] :: tagNamesGo none rest := rfl

theorem tagNames_close_p (rest : List Char) :
    tagNamesGo none ('<' :: '/' :: 'p' :: '>' :: rest) = tagNamesGo none rest := rfl

theorem tagNames_close_ul (rest : List Char) :
    tagNamesGo none ('<' :: '/' :: 'u' :: 'l' :: '>' :: rest) =
      tagNamesGo none rest := rfl

theorem tagNames_close_li (rest : List Char) :
    tagNamesGo none ('<' :: '/' :: 'l' :: 'i' :: '>' :: rest) =
      tagNamesGo none rest := rfl

/-- The item block of the unordered-list rendering contributes only `li`
names. -/
theorem tagNames_ulItems : ∀ (items : List (List Char)) (rest : List Char),
    (∀ i ∈ items, safeText (stripMarker i) = true) →
    rest.head? = some '<' →
    ∃ ns, tagNamesGo none ((items.map (fun i =>
        ('<' :: 'l' :: 'i' :: '>' :: []) ++ stripMarker i ++
          ('<' :: '/' :: 'l' :: 'i' :: '>' :: []))).flatten ++ rest) =
        ns ++ tagNamesGo none rest ∧ ∀ n ∈ ns, n = ['l', 'i'] := by
  intro items
  induction items with
  | nil =>
    intro rest _ _
    exact ⟨[], by simp, by simp⟩
  | cons i is ih =>
    intro rest hsafe hrest
    obtain ⟨ns, hns, hall⟩ := ih rest (fun j hj => hsafe j (List.mem_cons_of_mem i hj)) hrest
    refine ⟨['l', 'i'] :: ns, ?_, ?_⟩
    · have hX : (((i :: is).map (fun i =>
          ('<' :: 'l' :: 'i' :: '>' :: []) ++ stripMarker i ++
            ('<' :: '/' :: 'l' :: 'i' :: '>' :: []))).flatten ++ rest) =
          '<' :: 'l' :: 'i' :: '>' :: (stripMarker i ++
            ('<' :: '/' :: 'l' :: 'i' :: '>' ::
              (((is.map (fun i =>
                ('<' :: 'l' :: 'i' :: '>' :: []) ++ stripMarker i ++
                  ('<' :: '/' :: 'l' :: 'i' :: '>' :: []))).flatten ++ rest)))) := by
        simp [List.append_assoc]
      rw [hX, tagNames_li_open,
        tagNamesGo_safe_cons _ (hsafe i (List.mem_cons_self i is)) _,
        tagNames_close_li, hns]
      rfl
    · intro n hn
      rcases List.mem_cons.mp hn with rfl | hn
      · rfl
      · exact hall n hn

/-- The line-break joining of a multi-line paragraph contributes only
`br` names. -/
theorem tagNames_brJoin : ∀ (items : List (List Char)) (rest : List Char),
    (∀ i ∈ items, safeText i = true) →
    rest.head? = some '<' →
    ∃ ns, tagNamesGo none (joinSep ('<' :: 'b' :: 'r' :: '>' :: []) items ++ rest) =
        ns ++ tagNamesGo none rest ∧ ∀ n ∈ ns, n = ['b', 'r'] := by
  intro items
  induction items using joinSep.induct ('<' :: 'b' :: 'r' :: '>' :: []) with
  | case1 =>
    intro rest _ _
    exact ⟨[], by simp [joinSep], by simp⟩
  | case2 x =>
    intro rest hsafe hrest
    refine ⟨[], ?_, by simp⟩
    simp only [joinSep, List.nil_append]
    rw [tagNamesGo_safe_append _ (hsafe x (List.mem_cons_self x [])) _ (Or.inr hrest)]
  | case3 x y t ih =>
    intro rest hsafe hrest
    obtain ⟨ns, hns, hall⟩ :=
      ih rest (fun j hj => hsafe j (List.mem_cons_of_mem x hj)) hrest
    refine ⟨['b', 'r'] :: ns, ?_, ?_⟩
    · have hX : (joinSep ('<' :: 'b' :: 'r' :: '>' :: []) (x :: y :: t) ++ rest) =
          x ++ '<' :: 'b' :: 'r' :: '>' ::
            (joinSep ('<' :: 'b' :: 'r' :: '>' :: []) (y :: t) ++ rest) := by
        simp [joinSep, List.append_assoc]
      rw [hX,
        tagNamesGo_safe_cons _ (hsafe x (List.mem_cons_self x (y :: t))) _,
        tagNames_br_open, hns]
      rfl
    · intro n hn
      rcases List.mem_cons.mp hn with rfl | hn
      · rfl
      · exact hall n hn

theorem renderGroup_eq_nil (g : List Char)
    (h : ((splitLines g).filter trimmedNonempty).length = 0) :
    renderGroup g = [] := by
  simp only [renderGroup]
  rw [if_pos h]

theorem renderGroup_eq_single (g l : List Char)
    (h : (splitLines g).filter trimmedNonempty = [l]) :
    renderGroup g = '<' :: 'p' :: '>' :: (l ++ ('<' :: '/' :: 'p' :: '>' :: [])) := by
  simp [renderGroup, h]

theorem renderGroup_eq_ul (g : List Char)
    (h2 : 2 ≤ ((splitLines g).filter trimmedNonempty).length)
    (hm : (((splitLines g).filter trimmedNonempty).map trimL).any isMarkerLine = true) :
    renderGroup g =
      ('<' :: 'u' :: 'l' :: '>' :: []) ++
        ((((splitLines g).filter trimmedNonempty).map trimL).map
          (fun i => ('<' :: 'l' :: 'i' :: '>' :: []) ++ stripMarker i ++
            ('<' :: '/' :: 'l' :: 'i' :: '>' :: []))).flatten ++
        ('<' :: '/' :: 'u' :: 'l' :: '>' :: []) := by
  have h0 : ¬ ((splitLines g).filter trimmedNonempty).length = 0 := by omega
  have h1 : ¬ ((splitLines g).filter trimmedNonempty).length = 1 := by omega
  simp only [renderGroup]
  rw [if_neg h0, if_neg h1, if_pos hm]

theorem renderGroup_eq_br (g : List Char)
    (h2 : 2 ≤ ((splitLines g).filter trimmedNonempty).length)
    (hm : (((splitLines g).filter trimmedNonempty).map trimL).any isMarkerLine = false) :
    renderGroup g =
      '<' :: 'p' :: '>' ::
        ((joinSep ('<' :: 'b' :: 'r' :: '>' :: [])
            (((splitLines g).filter trimmedNonempty).map trimL)) ++
          ('<' :: '/' :: 'p' :: '>' :: [])) := by
  have h0 : ¬ ((splitLines g).filter trimmedNonempty).length = 0 := by omega
  have h1 : ¬ ((splitLines g).filter trimmedNonempty).length = 1 := by omega
  have hm2 : ¬ ((((splitLines g).filter trimmedNonempty).map trimL).any
      isMarkerLine = true) := by simp [hm]
  simp only [renderGroup]
  rw [if_neg h0, if_neg h1, if_neg hm2]

/-- The tag names contributed by one rendered paragraph group, with any
continuation that is empty or starts with `<`, are all allowed. -/
theorem tagNames_renderGroup (g rest : List Char) (hg : safeText g = true) :
    ∃ ns, tagNamesGo none (renderGroup g ++ rest) = ns ++ tagNamesGo none rest ∧
      ∀ n ∈ ns, allowedTag n = true := by
  have hlines : ∀ l ∈ (splitLines g).filter trimmedNonempty, safeText l = true :=
    fun l hl => safeText_mem_splitLines g hg l (List.mem_of_mem_filter hl)
  by_cases h0 : ((splitLines g).filter trimmedNonempty).length = 0
  · refine ⟨[], ?_, by simp⟩
    rw [renderGroup_eq_nil g h0]
    rfl
  · by_cases h1 : ((splitLines g).filter trimmedNonempty).length = 1
    · obtain ⟨l, hl⟩ := List.length_eq_one.mp h1
      have hsl : safeText l = true := hlines l (by rw [hl]; exact List.mem_cons_self l [])
      refine ⟨[['p']], ?_, by simp [allowedTag]⟩
      rw [renderGroup_eq_single g l hl]
      have hX : ('<' :: 'p' :: '>' :: (l ++ ('<' :: '/' :: 'p' :: '>' :: []))) ++ rest =
          '<' :: 'p' :: '>' :: (l ++ '<' :: '/' :: 'p' :: '>' :: rest) := by
        simp [List.append_assoc]
      rw [hX, tagNames_p_open, tagNamesGo_safe_cons _ hsl _, tagNames_close_p]
      rfl
    · have h2 : 2 ≤ ((splitLines g).filter trimmedNonempty).length := by omega
      have hitems : ∀ i ∈ ((splitLines g).filter trimmedNonempty).map trimL,
          safeText i = true := by
        intro i hi
        obtain ⟨l, hlmem, rfl⟩ := List.mem_map.mp hi
        exact safeText_trimL l (hlines l hlmem)
      by_cases hm : (((splitLines g).filter trimmedNonempty).map trimL).any
          isMarkerLine = true
      · obtain ⟨ns, hns, hall⟩ := tagNames_ulItems
          (((splitLines g).filter trimmedNonempty).map trimL)
          ('<' :: '/' :: 'u' :: 'l' :: '>' :: rest)
          (fun i hi => safeText_stripMarker i (hitems i hi)) rfl
        refine ⟨['u', 'l'] :: ns, ?_, ?_⟩
        · rw [renderGroup_eq_ul g h2 hm]
          have hX : (('<' :: 'u' :: 'l' :: '>' :: []) ++
              ((((splitLines g).filter trimmedNonempty).map trimL).map
                (fun i => ('<' :: 'l' :: 'i' :: '>' :: []) ++ stripMarker i ++
                  ('<' :: '/' :: 'l' :: 'i' :: '>' :: []))).flatten ++
              ('<' :: '/' :: 'u' :: 'l' :: '>' :: [])) ++ rest =
              '<' :: 'u' :: 'l' :: '>' ::
                (((((splitLines g).filter trimmedNonempty).map trimL).map
                  (fun i => ('<' :: 'l' :: 'i' :: '>' :: []) ++ stripMarker i ++
                    ('<' :: '/' :: 'l' :: 'i' :: '>' :: []))).flatten ++
                  ('<' :: '/' :: 'u' :: 'l' :: '>' :: rest)) := by
            simp [List.append_assoc]
          rw [hX, tagNames_ul_open, hns, tagNames_close_ul]
          rfl
        · intro n hn
          rcases List.mem_cons.mp hn with rfl | hn
          · rfl
          · rw [hall n hn]; rfl
      · have hm2 : (((splitLines g).filter trimmedNonempty).map trimL).any
            isMarkerLine = false := by
          cases hx : (((splitLines g).filter trimmedNonempty).map trimL).any
            isMarkerLine
          · rfl
          · exact absurd hx hm
        obtain ⟨ns, hns, hall⟩ := tagNames_brJoin
          (((splitLines g).filter trimmedNonempty).map trimL)
          ('<' :: '/' :: 'p' :: '>' :: rest) hitems rfl
        refine ⟨['p'] :: ns, ?_, ?_⟩
        · rw [renderGroup_eq_br g h2 hm2]
          have hX : ('<' :: 'p' :: '>' ::
              ((joinSep ('<' :: 'b' :: 'r' :: '>' :: [])
                  (((splitLines g).filter trimmedNonempty).map trimL)) ++
                ('<' :: '/' :: 'p' :: '>' :: []))) ++ rest =
              '<' :: 'p' :: '>' ::
                ((joinSep ('<' :: 'b' :: 'r' :: '>' :: [])
                    (((splitLines g).filter trimmedNonempty).map trimL)) ++
                  ('<' :: '/' :: 'p' :: '>' :: rest)) := by
            simp [List.append_assoc]
          rw [hX, tagNames_p_open, hns, tagNames_close_p]
          rfl
        · intro n hn
          rcases List.mem_cons.mp hn with rfl | hn
          · rfl
          · rw [hall n hn]; rfl

/-- The concatenation of the kept (non-empty) rendered chunks. -/
def promoteChunks (gs : List (List Char)) : List Char :=
  (((gs.map renderGroup).filter (fun p => !p.isEmpty)).flatten)

theorem promoteChunks_cons_of_empty (g : List Char) (gs : List (List Char))
    (h : renderGroup g = []) : promoteChunks (g :: gs) = promoteChunks gs := by
  simp [promoteChunks, h]

theorem promoteChunks_cons_of_ne (g : List Char) (gs : List (List Char))
    (h : ¬ renderGroup g = []) :
    promoteChunks (g :: gs) = renderGroup g ++ promoteChunks gs := by
  have hne : (renderGroup g).isEmpty = false := by
    cases hx : renderGroup g
    · exact absurd hx h
    · rfl
  simp [promoteChunks, List.filter_cons, hne]

theorem renderGroup_shape (g : List Char) :
    renderGroup g = [] ∨ (∃ tl, renderGroup g = '<' :: 'p' :: tl) ∨
      (∃ tl, renderGroup g = '<' :: 'u' :: tl) := by
  by_cases h0 : ((splitLines g).filter trimmedNonempty).length = 0
  · exact Or.inl (renderGroup_eq_nil g h0)
  · by_cases h1 : ((splitLines g).filter trimmedNonempty).length = 1
    · obtain ⟨l, hl⟩ := List.length_eq_one.mp h1
      exact Or.inr (Or.inl ⟨_, renderGroup_eq_single g l hl⟩)
    · have h2 : 2 ≤ ((splitLines g).filter trimmedNonempty).length := by omega
      by_cases hm : (((splitLines g).filter trimmedNonempty).map trimL).any
          isMarkerLine = true
      · refine Or.inr (Or.inr ⟨'l' :: '>' ::
          (((((splitLines g).filter trimmedNonempty).map trimL).map
            (fun i => ('<' :: 'l' :: 'i' :: '>' :: []) ++ stripMarker i ++
              ('<' :: '/' :: 'l' :: 'i' :: '>' :: []))).flatten ++
            ('<' :: '/' :: 'u' :: 'l' :: '>' :: [])), ?_⟩)
        rw [renderGroup_eq_ul g h2 hm]
        simp
      · have hm2 : (((splitLines g).filter trimmedNonempty).map trimL).any
            isMarkerLine = false := by
          cases hx : (((splitLines g).filter trimmedNonempty).map trimL).any
            isMarkerLine
          · rfl
          · exact absurd hx hm
        exact Or.inr (Or.inl ⟨_, renderGroup_eq_br g h2 hm2⟩)

theorem chunks_head_shape : ∀ gs : List (List Char),
    promoteChunks gs = [] ∨ (∃ tl, promoteChunks gs = '<' :: 'p' :: tl) ∨
      (∃ tl, promoteChunks gs = '<' :: 'u' :: tl) := by
  intro gs
  induction gs with
  | nil => exact Or.inl rfl
  | cons g gs2 ih =>
    rcases renderGroup_shape g with hg | ⟨tl, hg⟩ | ⟨tl, hg⟩
    · rw [promoteChunks_cons_of_empty g gs2 hg]
      exact ih
    · refine Or.inr (Or.inl ⟨tl ++ promoteChunks gs2, ?_⟩)
      rw [promoteChunks_cons_of_ne g gs2 (by rw [hg]; simp), hg]
      simp
    · refine Or.inr (Or.inr ⟨tl ++ promoteChunks gs2, ?_⟩)
      rw [promoteChunks_cons_of_ne g gs2 (by rw [hg]; simp), hg]
      simp

theorem tagNames_chunks : ∀ gs : List (List Char),
    (∀ g ∈ gs, safeText g = true) →
    ∀ n ∈ tagNamesGo none (promoteChunks gs), allowedTag n = true := by
  intro gs
  induction gs with
  | nil => intro _ n hn; simp [promoteChunks, tagNamesGo] at hn
  | cons g gs2 ih =>
    intro hsafe n hn
    by_cases hne : renderGroup g = []
    · rw [promoteChunks_cons_of_empty g gs2 hne] at hn
      exact ih (fun g2 hg2 => hsafe g2 (List.mem_cons_of_mem g hg2)) n hn
    · obtain ⟨ns, hns, hall⟩ := tagNames_renderGroup g (promoteChunks gs2)
        (hsafe g (List.mem_cons_self g gs2))
      rw [promoteChunks_cons_of_ne g gs2 hne, hns] at hn
      rcases List.mem_append.mp hn with hn | hn
      · exact hall n hn
      · exact ih (fun g2 hg2 => hsafe g2 (List.mem_cons_of_mem g hg2)) n hn

theorem looksLike_eq_false_of_safe : ∀ l, safeText l = true → looksLike l = false := by
  intro l
  induction l with
  | nil => intro _; rfl
  | cons c r ih =>
    intro h
    cases r with
    | nil => rfl
    | cons d r2 =>
      have h2 : looksLike (d :: r2) = false := ih (safeText_tail c (d :: r2) h)
      simp only [safeText, Bool.and_eq_true, Bool.not_eq_eq_eq_not, Bool.not_true,
        Bool.and_eq_false_iff] at h
      simp only [looksLike, Bool.or_eq_false_iff]
      refine ⟨?_, h2⟩
      rcases h.1 with h1 | h1
      · simp at h1
        simp [h1]
      · simp [h1]

theorem textToHtmlL_safe (t : List Char) (h : safeText t = true) :
    textToHtmlL t = promoteChunks (splitPara t) := by
  unfold textToHtmlL promoteChunks
  rw [if_neg]
  rw [looksLike_eq_false_of_safe t h]
  simp

/-- C7 amended: for every text in which `<` is never immediately followed
by an ASCII letter, the promoted output contains only `p`, `ul`/`li` and
`br` element tokens; the output never equals the raw input unless the
input is empty (the promoter always wraps, but inserts the text itself
unescaped); and the promoter is total with empty input giving empty
output. -/
theorem promoteSafeOnlyAllowedTags (t : String) (h : safeText t.data = true) :
    onlyAllowedTags (textToHtml t).data = true ∧
    (t ≠ "" → textToHtml t ≠ t) ∧ textToHtml "" = "" := by
  have hdata : (textToHtml t).data = textToHtmlL t.data := rfl
  have hchunks := textToHtmlL_safe t.data h
  refine ⟨?_, ?_, by decide⟩
  · unfold onlyAllowedTags tagNamesIn
    rw [hdata, hchunks, List.all_eq_true]
    intro n hn
    exact tagNames_chunks (splitPara t.data)
      (fun g hg => safeText_mem_splitPara t.data h g hg) n hn
  · intro hne hcontra
    have hdne : t.data ≠ [] := fun hx => hne (String.ext hx)
    have heq : textToHtmlL t.data = t.data := congrArg String.data hcontra
    rw [hchunks] at heq
    rcases chunks_head_shape (splitPara t.data) with hc | ⟨tl, hc⟩ | ⟨tl, hc⟩
    · rw [hc] at heq
      exact hdne heq.symm
    · rw [hc] at heq
      rw [← heq] at h
      have hp : ('p').isAlpha = true := by decide
      simp [safeText, hp] at h
    · rw [hc] at heq
      rw [← heq] at h
      have hu : ('u').isAlpha = true := by decide
      simp [safeText, hu] at h

theorem promoteSafeOnlyAllowedTags_witness :
    safeText ("• foo\nbar > baz").data = true ∧
    (onlyAllowedTags (textToHtml "• foo\nbar > baz").data = true ∧
      ("• foo\nbar > baz" ≠ "" → textToHtml "• foo\nbar > baz" ≠ "• foo\nbar > baz") ∧
      textToHtml "" = "") :=
  ⟨by decide, promoteSafeOnlyAllowedTags "• foo\nbar > baz" (by decide)⟩

end PostEditor
